import Mathlib

/-!
Verification of `src/security_audit.py`, a git pre-commit hook that scans
staged files for secret patterns.

The script's behaviour is embedded shallowly:

* the two regular expressions of `check_staged_files` become executable
  scanners over `List Char` (`ruleA` for `sk-[a-zA-Z0-9]{20,}`, `ruleB` for
  `password.*=.*['"][^'"]{8,}['"]` with `re.IGNORECASE`);
* the interaction with git is a parameter: the outcome of
  `git diff --cached --name-only` is a `GitOutcome` (captured stdout plus exit
  code, or an exception), and the per-path `git show :path` fetch is a
  function `String → Option String` (`none` models an exception while reading,
  e.g. a decode error on binary content; `subprocess.run` without `check=True`
  never raises on a non-zero exit, so a failed `git show` is modelled as
  `some` of whatever stdout it produced);
* console output is a list of abstract messages `Msg`.
-/

/-- ASCII lower-casing, the part of `re.IGNORECASE` exercised by the
pattern `password` (its letters are ASCII). -/
def lowerc (c : Char) : Char :=
  if 'A' ≤ c && c ≤ 'Z' then Char.ofNat (c.toNat + 32) else c

/-- The character class `['"]` of the password pattern. -/
def isQuote (c : Char) : Bool :=
  c = '\'' || c = '"'

/-- The character class `[a-zA-Z0-9]` of the API-key pattern. -/
def isAlnum (c : Char) : Bool :=
  ('a' ≤ c && c ≤ 'z') || ('A' ≤ c && c ≤ 'Z') || ('0' ≤ c && c ≤ '9')

/-- Generic search: does `f` accept some suffix of the input?  This is the
`re.search` part of both rules: a regex matches the content iff its anchored
form matches some suffix. -/
def anySuffix (f : List Char → Bool) : List Char → Bool
  | [] => f []
  | c :: rest => f (c :: rest) || anySuffix f rest

/-- Anchored match of `sk-[a-zA-Z0-9]{20,}`: the literal `sk-` (case
sensitive, the script passes no flag to this `re.search`) followed by at
least 20 alphanumeric characters. -/
def ruleA_at : List Char → Bool
  | 's' :: 'k' :: '-' :: rest =>
      decide (20 ≤ rest.length) && (rest.take 20).all isAlnum
  | _ => false

/-- Rule A of `check_staged_files` (line 28 of the script):
`re.search(r'sk-[a-zA-Z0-9]{20,}', content)` is truthy. -/
def ruleA (s : List Char) : Bool := anySuffix ruleA_at s

/-- The literal token of the password pattern. -/
def pwChars : List Char := "password".data

/-- Case-insensitive literal match: consume `pat` from the front of the
input (comparing ASCII-lowercased characters) and return the remainder,
or `none` when the input does not start with `pat`. -/
def stripCI : List Char → List Char → Option (List Char)
  | [], s => some s
  | _ :: _, [] => none
  | p :: ps, c :: cs => if lowerc c = lowerc p then stripCI ps cs else none

/-- The regex fragment `.*k` for a continuation `k`: skip any number of
non-newline characters (Python's `.` without `re.DOTALL` matches every
character except `'\n'`), then match the continuation. -/
def dotStar (cont : List Char → Bool) : List Char → Bool
  | [] => cont []
  | c :: rest => cont (c :: rest) || (c != '\n' && dotStar cont rest)

/-- The regex fragment `[^'"]{8,}['"]` once the opening quote is consumed:
`n` counts the non-quote characters read so far.  The negated class `[^'"]`
matches every character except the two quotes — including `'\n'`.  The body
must run up to the first quote character, so the match succeeds iff that
first quote appears after at least 8 characters. -/
def quotedBody : List Char → Nat → Bool
  | [], _ => false
  | c :: rest, n => if isQuote c then decide (8 ≤ n) else quotedBody rest (n + 1)

/-- The regex fragment `['"][^'"]{8,}['"]`: an opening quote, then at least
8 non-quote characters, then a closing quote (which need not equal the
opening one — the class `['"]` accepts either). -/
def openQuote : List Char → Bool
  | [] => false
  | c :: rest => isQuote c && quotedBody rest 0

/-- The regex fragment `=.*['"][^'"]{8,}['"]`. -/
def eqThen : List Char → Bool
  | [] => false
  | c :: rest => c == '=' && dotStar openQuote rest

/-- Anchored match of `password.*=.*['"][^'"]{8,}['"]` with `re.IGNORECASE`. -/
def ruleB_at (s : List Char) : Bool :=
  match stripCI pwChars s with
  | some rest => dotStar eqThen rest
  | none => false

/-- Rule B of `check_staged_files` (line 33 of the script):
`re.search(r'password.*=.*[\'"][^\'"]{8,}[\'"]', content, re.IGNORECASE)`
is truthy. -/
def ruleB (s : List Char) : Bool := anySuffix ruleB_at s

/-- Split a character list at newline characters, the way Python's
`content.split('\n')` produces the individual lines of the content. -/
def splitLines : List Char → List (List Char)
  | [] => [[]]
  | c :: rest =>
    if c = '\n' then [] :: splitLines rest
    else
      match splitLines rest with
      | [] => [[c]]
      | l :: ls => (c :: l) :: ls

/-- The console messages the script can print: the two per-file block
reasons (with the offending path interpolated), the success marker, and
the warning printed by the outer `except` handler. -/
inductive Msg where
  | apiKey (file : String)
  | password (file : String)
  | passed
  | auditError
deriving DecidableEq

/-- Outcome of the `subprocess.run(['git', 'diff', '--cached',
'--name-only'], ...)` call: either it returns (with an exit code, which the
script never inspects, and a captured stdout), or it raises (`exn`), which
the outer `try` of `check_staged_files` catches. -/
inductive GitOutcome where
  | run (exitCode : Nat) (stdout : String)
  | exn

/-- The per-file loop of `check_staged_files` (lines 17-39): skip empty
path strings, skip paths whose content fetch raises (the inner
`except ... continue`), block with the matching rule's message on the first
match — rule A is tested before rule B — and print the success marker after
the last file.  Returns the printed messages and the boolean verdict. -/
def scanFiles (fetch : String → Option String) : List String → List Msg × Bool
  | [] => ([Msg.passed], true)
  | f :: rest =>
    if f = "" then scanFiles fetch rest
    else
      match fetch f with
      | none => scanFiles fetch rest
      | some content =>
        if ruleA content.data then ([Msg.apiKey f], false)
        else if ruleB content.data then ([Msg.password f], false)
        else scanFiles fetch rest

/-- Python whitespace, the character set removed by `str.strip()`. -/
def isSpace (c : Char) : Bool :=
  c = ' ' || c = '\t' || c = '\n' || c = '\r' || c = '\x0b' || c = '\x0c'

/-- Python's `str.strip()`: drop whitespace from both ends. -/
def pyStrip (s : List Char) : List Char :=
  ((s.dropWhile isSpace).reverse.dropWhile isSpace).reverse

/-- Line 15 of the script:
`result.stdout.strip().split('\n') if result.stdout.strip() else []`.
Python's `split('\n')` is `splitLines`. -/
def parseListing (stdout : String) : List String :=
  if pyStrip stdout.data = [] then []
  else (splitLines (pyStrip stdout.data)).map String.mk

/-- `check_staged_files`: list the staged files and scan them; any
exception of the listing call (or of the outer control flow) is caught by
the outer `except`, which prints the warning and returns `True` (lines
44-46). -/
def check_staged_files (listing : GitOutcome) (fetch : String → Option String) :
    List Msg × Bool :=
  match listing with
  | .run _ stdout => scanFiles fetch (parseListing stdout)
  | .exn => ([Msg.auditError], true)

/-- The `__main__` block: exit 1 when `check_staged_files` returns `False`,
exit 0 otherwise. -/
def mainExit (listing : GitOutcome) (fetch : String → Option String) : Nat :=
  if (check_staged_files listing fetch).2 then 0 else 1


/-! ### Sufficiency lemmas: explicit pattern decompositions imply a rule match -/

/-- A predicate holding on the whole input makes the suffix search succeed. -/
theorem anySuffix_self (f : List Char → Bool) (s : List Char) (h : f s = true) :
    anySuffix f s = true := by
  cases s with
  | nil => simpa [anySuffix] using h
  | cons c rest => simp [anySuffix, h]

/-- The suffix search succeeds on any left extension of the input. -/
theorem anySuffix_append_left (f : List Char → Bool) (pre t : List Char)
    (h : anySuffix f t = true) : anySuffix f (pre ++ t) = true := by
  induction pre with
  | nil => simpa using h
  | cons c cs ih => simp [anySuffix, ih]

/-- `stripCI` consumes any case-variant of the pattern. -/
theorem stripCI_of_map : ∀ (pat s rest : List Char), s.map lowerc = pat.map lowerc →
    stripCI pat (s ++ rest) = some rest := by
  intro pat
  induction pat with
  | nil =>
    intro s rest h
    have hs : s = [] := by simpa using h
    simp [hs, stripCI]
  | cons p ps ih =>
    intro s rest h
    cases s with
    | nil => simp at h
    | cons c cs =>
      simp only [List.map_cons, List.cons.injEq] at h
      simpa [stripCI, h.1] using ih cs rest h.2

/-- `dotStar` succeeds when the continuation already matches at the start. -/
theorem dotStar_self (cont : List Char → Bool) (s : List Char) (h : cont s = true) :
    dotStar cont s = true := by
  cases s with
  | nil => simpa [dotStar] using h
  | cons c rest => simp [dotStar, h]

/-- `dotStar` skips any newline-free segment before the continuation. -/
theorem dotStar_of (cont : List Char → Bool) :
    ∀ (mid t : List Char), mid.all (fun ch => ch != '\n') = true → cont t = true →
    dotStar cont (mid ++ t) = true := by
  intro mid
  induction mid with
  | nil => intro t _ h; exact dotStar_self cont t h
  | cons c cs ih =>
    intro t hall h
    simp only [List.all_cons, Bool.and_eq_true] at hall
    simp only [List.cons_append, dotStar, Bool.or_eq_true, Bool.and_eq_true]
    exact Or.inr ⟨hall.1, ih t hall.2 h⟩

/-- A quote-free body of enough length followed by a quote satisfies
`[^'"]{8,}['"]`. -/
theorem quotedBody_of : ∀ (body : List Char) (n : Nat) (q : Char) (post : List Char),
    body.all (fun ch => !isQuote ch) = true → isQuote q = true →
    8 ≤ n + body.length → quotedBody (body ++ q :: post) n = true := by
  intro body
  induction body with
  | nil =>
    intro n q post _ hq hn
    simp only [List.nil_append, quotedBody, hq, if_true, decide_eq_true_eq]
    simpa using hn
  | cons c cs ih =>
    intro n q post hall hq hn
    simp only [List.all_cons, Bool.and_eq_true] at hall
    have hc : isQuote c = false := by
      cases hv : isQuote c with
      | false => rfl
      | true => rw [hv] at hall; simp at hall
    simp only [List.cons_append, quotedBody, hc, if_false, Bool.false_eq_true]
    exact ih (n + 1) q post hall.2 hq (by simp at hn ⊢; omega)

/-- Anchored rule A holds at an `sk-` followed by 20 alphanumerics. -/
theorem ruleA_at_of (run post : List Char) (hall : run.all isAlnum = true)
    (hlen : 20 ≤ run.length) :
    ruleA_at ('s' :: 'k' :: '-' :: (run ++ post)) = true := by
  simp only [ruleA_at, Bool.and_eq_true, decide_eq_true_eq]
  constructor
  · rw [List.length_append]; omega
  · rw [List.take_append_of_le_length hlen]
    rw [List.all_eq_true] at hall ⊢
    intro c hc
    exact hall c (List.take_subset 20 run hc)

/-- Rule A fires on any content containing `sk-` plus 20 alphanumerics. -/
theorem ruleA_of_decomp (pre run post : List Char) (hall : run.all isAlnum = true)
    (hlen : 20 ≤ run.length) :
    ruleA (pre ++ ('s' :: 'k' :: '-' :: (run ++ post))) = true :=
  anySuffix_append_left ruleA_at pre _
    (anySuffix_self ruleA_at _ (ruleA_at_of run post hall hlen))

/-- Anchored rule B holds at a case-variant of `password`, a newline-free
gap, `=`, another newline-free gap, a quote, a quote-free body of length at
least 8, and a quote. -/
theorem ruleB_at_of (pw mid1 mid2 body post : List Char) (q1 q2 : Char)
    (hpw : pw.map lowerc = pwChars)
    (h1 : mid1.all (fun ch => ch != '\n') = true)
    (h2 : mid2.all (fun ch => ch != '\n') = true)
    (hq1 : isQuote q1 = true) (hq2 : isQuote q2 = true)
    (hbody : body.all (fun ch => !isQuote ch) = true)
    (hlen : 8 ≤ body.length) :
    ruleB_at (pw ++ (mid1 ++ ('=' :: (mid2 ++ (q1 :: (body ++ (q2 :: post))))))) = true := by
  have hpc : pwChars.map lowerc = pwChars := by decide
  have hstrip := stripCI_of_map pwChars pw
    (mid1 ++ ('=' :: (mid2 ++ (q1 :: (body ++ (q2 :: post)))))) (by rw [hpw, hpc])
  rw [ruleB_at, hstrip]
  apply dotStar_of eqThen mid1 _ h1
  simp only [eqThen, beq_self_eq_true, Bool.true_and]
  apply dotStar_of openQuote mid2 _ h2
  simp only [openQuote, hq1, Bool.true_and]
  exact quotedBody_of body 0 q2 post hbody hq2 (by simpa using hlen)

/-- Rule B fires on any content containing such a decomposition. -/
theorem ruleB_of_decomp (pre pw mid1 mid2 body post : List Char) (q1 q2 : Char)
    (hpw : pw.map lowerc = pwChars)
    (h1 : mid1.all (fun ch => ch != '\n') = true)
    (h2 : mid2.all (fun ch => ch != '\n') = true)
    (hq1 : isQuote q1 = true) (hq2 : isQuote q2 = true)
    (hbody : body.all (fun ch => !isQuote ch) = true)
    (hlen : 8 ≤ body.length) :
    ruleB (pre ++ (pw ++ (mid1 ++ ('=' :: (mid2 ++ (q1 :: (body ++ (q2 :: post)))))))) = true :=
  anySuffix_append_left ruleB_at pre _
    (anySuffix_self ruleB_at _
      (ruleB_at_of pw mid1 mid2 body post q1 q2 hpw h1 h2 hq1 hq2 hbody hlen))

/-! ### Lemmas about the per-file scanning loop -/

/-- If some nonempty listed path fetches to content matching a rule, the
loop's verdict is a block, whatever the other files hold. -/
theorem scan_blocks_of_bad (fetch : String → Option String) :
    ∀ (files : List String) (p : String), p ∈ files → p ≠ "" →
    ∀ c : String, fetch p = some c →
    (ruleA c.data = true ∨ ruleB c.data = true) →
    (scanFiles fetch files).2 = false := by
  intro files
  induction files with
  | nil => intro p hp; exact absurd hp (List.not_mem_nil p)
  | cons f rest ih =>
    intro p hp hpne c hfc hrule
    rcases List.mem_cons.mp hp with heq | hmem
    · subst heq
      simp only [scanFiles, if_neg hpne, hfc]
      rcases hrule with hr | hr
      · simp [hr]
      · cases hA : ruleA c.data <;> simp [hA, hr]
    · by_cases hf : f = ""
      · simpa [scanFiles, hf] using ih p hmem hpne c hfc hrule
      · cases hff : fetch f with
        | none => simpa [scanFiles, hf, hff] using ih p hmem hpne c hfc hrule
        | some content =>
          cases hA : ruleA content.data with
          | true => simp [scanFiles, hf, hff, hA]
          | false =>
            cases hB : ruleB content.data with
            | true => simp [scanFiles, hf, hff, hA, hB]
            | false =>
              simpa [scanFiles, hf, hff, hA, hB] using ih p hmem hpne c hfc hrule

/-- A file the loop passes over without effect: an empty path string, a
path whose fetch raises, or content matching neither rule. -/
def cleanFile (fetch : String → Option String) (q : String) : Bool :=
  q == "" || (fetch q).all (fun c => !(ruleA c.data || ruleB c.data))

/-- A clean head file leaves the loop's result unchanged. -/
theorem scanFiles_clean_cons (fetch : String → Option String) (f : String)
    (rest : List String) (h : cleanFile fetch f = true) :
    scanFiles fetch (f :: rest) = scanFiles fetch rest := by
  by_cases hf : f = ""
  · simp [scanFiles, hf]
  · simp only [cleanFile, Bool.or_eq_true, beq_iff_eq] at h
    rcases h with h | h
    · exact absurd h hf
    · cases hff : fetch f with
      | none => simp [scanFiles, hf, hff]
      | some content =>
        rw [hff] at h
        simp only [Option.all_some, Bool.not_eq_true', Bool.or_eq_false_iff] at h
        simp [scanFiles, hf, hff, h.1, h.2]

/-- A run of clean files at the front leaves the loop's result unchanged. -/
theorem scanFiles_clean_append (fetch : String → Option String) :
    ∀ (pre rest : List String), (∀ q ∈ pre, cleanFile fetch q = true) →
    scanFiles fetch (pre ++ rest) = scanFiles fetch rest := by
  intro pre
  induction pre with
  | nil => intro rest _; rfl
  | cons f fs ih =>
    intro rest h
    rw [List.cons_append,
      scanFiles_clean_cons fetch f (fs ++ rest) (h f (List.mem_cons_self f fs))]
    exact ih rest (fun q hq => h q (List.mem_cons_of_mem f hq))

/-- A nonempty head path with fetched content matching a rule makes the
loop block at once, printing the message of the first matching rule. -/
theorem scanFiles_hit (fetch : String → Option String) (p : String)
    (post : List String) (c : String) (hp : p ≠ "") (hc : fetch p = some c)
    (hmatch : ruleA c.data = true ∨ ruleB c.data = true) :
    scanFiles fetch (p :: post) =
      ((if ruleA c.data then [Msg.apiKey p] else [Msg.password p]), false) := by
  simp only [scanFiles, if_neg hp, hc]
  rcases hmatch with hr | hr
  · simp [hr]
  · cases hA : ruleA c.data <;> simp [hA, hr]

/-- A path whose fetch raises is exactly dropped from the listing. -/
theorem scanFiles_skip (fetch : String → Option String) (p : String)
    (hp : fetch p = none) :
    ∀ pre post : List String,
    scanFiles fetch (pre ++ p :: post) = scanFiles fetch (pre ++ post) := by
  intro pre
  induction pre with
  | nil =>
    intro post
    by_cases hpe : p = ""
    · simp [scanFiles, hpe]
    · simp [scanFiles, hpe, hp]
  | cons f fs ih =>
    intro post
    simp only [List.cons_append, scanFiles, List.append_eq, ih post]

/-- The loop only consults the fetch function on the listed paths. -/
theorem scanFiles_congr : ∀ (files : List String) (f1 f2 : String → Option String),
    (∀ p ∈ files, f1 p = f2 p) → scanFiles f1 files = scanFiles f2 files := by
  intro files
  induction files with
  | nil => intro f1 f2 _; rfl
  | cons f rest ih =>
    intro f1 f2 h
    have hf := h f (List.mem_cons_self f rest)
    have hrest := ih f1 f2 (fun p hp => h p (List.mem_cons_of_mem f hp))
    simp only [scanFiles, hf, hrest]

/-! ### Monotonicity of rule B under extension, and line decomposition -/

/-- `quotedBody` only inspects the input up to the first quote, so it
survives a right extension. -/
theorem quotedBody_append (e : List Char) : ∀ (s : List Char) (n : Nat),
    quotedBody s n = true → quotedBody (s ++ e) n = true := by
  intro s
  induction s with
  | nil => intro n h; simp [quotedBody] at h
  | cons c rest ih =>
    intro n h
    cases hq : isQuote c with
    | true =>
      rw [quotedBody, if_pos hq] at h
      simpa [quotedBody, hq] using h
    | false =>
      rw [quotedBody, if_neg (by simp [hq])] at h
      simpa [quotedBody, hq] using ih (n + 1) h

/-- `openQuote` survives a right extension. -/
theorem openQuote_append (e s : List Char) (h : openQuote s = true) :
    openQuote (s ++ e) = true := by
  cases s with
  | nil => simp [openQuote] at h
  | cons c rest =>
    simp only [openQuote, Bool.and_eq_true] at h
    simp only [List.cons_append, openQuote, Bool.and_eq_true]
    exact ⟨h.1, quotedBody_append e rest 0 h.2⟩

/-- `dotStar` survives a right extension when its continuation does. -/
theorem dotStar_append (cont : List Char → Bool) (e : List Char)
    (hcont : ∀ t, cont t = true → cont (t ++ e) = true) :
    ∀ s, dotStar cont s = true → dotStar cont (s ++ e) = true := by
  intro s
  induction s with
  | nil =>
    intro h
    simp only [dotStar] at h
    simpa using dotStar_self cont e (by simpa using hcont [] h)
  | cons c rest ih =>
    intro h
    simp only [dotStar, Bool.or_eq_true, Bool.and_eq_true] at h
    simp only [List.cons_append, dotStar, Bool.or_eq_true, Bool.and_eq_true]
    rcases h with h | ⟨hc, h⟩
    · exact Or.inl (by simpa using hcont (c :: rest) h)
    · exact Or.inr ⟨hc, ih h⟩

/-- `eqThen` survives a right extension. -/
theorem eqThen_append (e s : List Char) (h : eqThen s = true) :
    eqThen (s ++ e) = true := by
  cases s with
  | nil => simp [eqThen] at h
  | cons c rest =>
    simp only [eqThen, Bool.and_eq_true] at h
    simp only [List.cons_append, eqThen, Bool.and_eq_true]
    exact ⟨h.1, dotStar_append openQuote e (openQuote_append e) rest h.2⟩

/-- `stripCI` commutes with a right extension of its input. -/
theorem stripCI_append (e : List Char) : ∀ (pat s r : List Char),
    stripCI pat s = some r → stripCI pat (s ++ e) = some (r ++ e) := by
  intro pat
  induction pat with
  | nil =>
    intro s r h
    simp only [stripCI, Option.some.injEq] at h
    simp [stripCI, h]
  | cons p ps ih =>
    intro s r h
    cases s with
    | nil => simp [stripCI] at h
    | cons c cs =>
      by_cases hl : lowerc c = lowerc p
      · rw [stripCI, if_pos hl] at h
        simpa [stripCI, hl] using ih cs r h
      · rw [stripCI, if_neg hl] at h
        exact absurd h (by simp)

/-- The anchored rule B match survives a right extension. -/
theorem ruleB_at_append (e s : List Char) (h : ruleB_at s = true) :
    ruleB_at (s ++ e) = true := by
  rw [ruleB_at] at h
  cases hs : stripCI pwChars s with
  | none => rw [hs] at h; simp at h
  | some rest =>
    rw [hs] at h
    rw [ruleB_at, stripCI_append e pwChars s rest hs]
    exact dotStar_append eqThen e (eqThen_append e) rest h

/-- The suffix search survives a right extension when the anchored
matcher does. -/
theorem anySuffix_append_right (f : List Char → Bool) (e : List Char)
    (hf : ∀ t, f t = true → f (t ++ e) = true) :
    ∀ s, anySuffix f s = true → anySuffix f (s ++ e) = true := by
  intro s
  induction s with
  | nil =>
    intro h
    simp only [anySuffix] at h
    simpa using anySuffix_self f e (by simpa using hf [] h)
  | cons c rest ih =>
    intro h
    simp only [anySuffix, Bool.or_eq_true] at h
    simp only [List.cons_append, anySuffix, Bool.or_eq_true]
    rcases h with h | h
    · exact Or.inl (by simpa using hf (c :: rest) h)
    · exact Or.inr (ih h)

/-- Rule B fires on any two-sided extension of content it fires on. -/
theorem ruleB_infix (pre t post : List Char) (h : ruleB t = true) :
    ruleB (pre ++ (t ++ post)) = true :=
  anySuffix_append_left ruleB_at pre (t ++ post)
    (anySuffix_append_right ruleB_at post (fun t' h' => ruleB_at_append post t' h') t h)

/-- `splitLines` never returns the empty list of lines. -/
theorem splitLines_ne_nil : ∀ s : List Char, splitLines s ≠ [] := by
  intro s
  cases s with
  | nil => simp [splitLines]
  | cons c rest =>
    by_cases hc : c = '\n'
    · simp [splitLines, hc]
    · simp only [splitLines, if_neg hc]
      cases splitLines rest <;> simp

/-- `splitLines` on a leading newline starts with an empty line. -/
theorem splitLines_nl (rest : List Char) :
    splitLines ('\n' :: rest) = [] :: splitLines rest := by
  simp [splitLines]

/-- The first line of `splitLines` is an initial segment of the input:
either the whole input (no newline) or the part before the first newline. -/
theorem splitLines_head_structure : ∀ (s l : List Char) (ls : List (List Char)),
    splitLines s = l :: ls →
    (s = l ∧ ls = []) ∨ ∃ rest, s = l ++ '\n' :: rest ∧ splitLines rest = ls := by
  intro s
  induction s with
  | nil =>
    intro l ls h
    simp only [splitLines, List.cons.injEq] at h
    exact Or.inl ⟨h.1, h.2.symm⟩
  | cons c rest ih =>
    intro l ls h
    by_cases hc : c = '\n'
    · subst hc
      rw [splitLines_nl] at h
      obtain ⟨h1, h2⟩ := List.cons.injEq .. |>.mp h
      exact Or.inr ⟨rest, by simp [← h1], h2⟩
    · simp only [splitLines, if_neg hc] at h
      cases hrec : splitLines rest with
      | nil => exact absurd hrec (splitLines_ne_nil rest)
      | cons m ms =>
        rw [hrec] at h
        obtain ⟨hl, hls⟩ := List.cons.injEq .. |>.mp h
        rcases ih m ms hrec with ⟨hr, hms⟩ | ⟨r2, hr, hsp⟩
        · exact Or.inl ⟨by rw [hr, hl], by rw [← hls]; exact hms⟩
        · exact Or.inr ⟨r2, by rw [hr, ← hl, List.cons_append], by rw [hsp]; exact hls⟩

/-- Every line produced by `splitLines` occurs inside the input. -/
theorem mem_splitLines_infix : ∀ (s l : List Char), l ∈ splitLines s →
    ∃ pre post, s = pre ++ (l ++ post) := by
  intro s
  induction s with
  | nil =>
    intro l h
    simp only [splitLines, List.mem_singleton] at h
    exact ⟨[], [], by simp [h]⟩
  | cons c rest ih =>
    intro l h
    by_cases hc : c = '\n'
    · subst hc
      rw [splitLines_nl] at h
      rcases List.mem_cons.mp h with h | h
      · exact ⟨[], '\n' :: rest, by simp [h]⟩
      · obtain ⟨pre, post, hp⟩ := ih l h
        exact ⟨'\n' :: pre, post, by rw [hp, List.cons_append]⟩
    · simp only [splitLines, if_neg hc] at h
      cases hrec : splitLines rest with
      | nil => exact absurd hrec (splitLines_ne_nil rest)
      | cons m ms =>
        rw [hrec] at h
        rcases List.mem_cons.mp h with h | h
        · subst h
          rcases splitLines_head_structure rest m ms hrec with ⟨hr, _⟩ | ⟨r2, hr, _⟩
          · exact ⟨[], [], by simp [hr]⟩
          · exact ⟨[], '\n' :: r2, by simp [hr]⟩
        · obtain ⟨pre, post, hp⟩ :=
            ih l (hrec ▸ List.mem_cons_of_mem m h)
          exact ⟨c :: pre, post, by rw [hp, List.cons_append]⟩

/-! ### The claims -/

/-- C1: for every staged file whose fetched staged content contains a
substring `sk-` (case-sensitive) followed by 20 or more alphanumeric
characters, the audit returns block (`check_staged_files` returns `False`)
and the process exits with code 1, regardless of the content of the other
staged files. -/
theorem c1_api_key_blocks (ec : Nat) (out : String) (fetch : String → Option String)
    (p c : String) (pre run post : List Char)
    (hmem : p ∈ parseListing out) (hp : p ≠ "")
    (hfetch : fetch p = some c)
    (hdec : c.data = pre ++ ('s' :: 'k' :: '-' :: (run ++ post)))
    (hall : run.all isAlnum = true) (hlen : 20 ≤ run.length) :
    (check_staged_files (.run ec out) fetch).2 = false ∧
      mainExit (.run ec out) fetch = 1 := by
  have hA : ruleA c.data = true := by
    rw [hdec]; exact ruleA_of_decomp pre run post hall hlen
  have hblock := scan_blocks_of_bad fetch (parseListing out) p hmem hp c hfetch (Or.inl hA)
  exact ⟨hblock, by simp [mainExit, check_staged_files, hblock]⟩

/-- Witness for C1: the spec's scenario, staged `config.py` containing
`API_KEY = "sk-abcdefghijklmnopqrstuvwxyz"`. -/
theorem c1_api_key_blocks_witness :
    (check_staged_files (.run 0 "config.py")
      (fun _ => some "API_KEY = \"sk-abcdefghijklmnopqrstuvwxyz\"")).2 = false ∧
    mainExit (.run 0 "config.py")
      (fun _ => some "API_KEY = \"sk-abcdefghijklmnopqrstuvwxyz\"") = 1 :=
  c1_api_key_blocks 0 "config.py" _ "config.py"
    "API_KEY = \"sk-abcdefghijklmnopqrstuvwxyz\""
    "API_KEY = \"".data "abcdefghijklmnopqrstuvwxyz".data "\"".data
    (by decide) (by decide) (by decide) (by decide) (by decide) (by decide)

/-- C2: rule B blocks exactly at the 8-character boundary.  First part:
content containing, case-insensitively, `password`, then (on the same
line) `=`, then a quoted string with at least 8 non-quote characters,
makes the audit block with exit 1.  Second part: a quoted string of
exactly 7 characters after `password = ` does not trigger a block, while
8 characters do. -/
theorem c2_password_boundary :
    (∀ (ec : Nat) (out : String) (fetch : String → Option String) (p c : String)
      (pre pw mid1 mid2 body post : List Char) (q : Char),
      p ∈ parseListing out → p ≠ "" → fetch p = some c →
      c.data = pre ++ (pw ++ (mid1 ++ ('=' :: (mid2 ++ (q :: (body ++ (q :: post))))))) →
      pw.map lowerc = pwChars →
      mid1.all (fun ch => ch != '\n') = true →
      mid2.all (fun ch => ch != '\n') = true →
      isQuote q = true →
      body.all (fun ch => !isQuote ch) = true →
      8 ≤ body.length →
      (check_staged_files (.run ec out) fetch).2 = false ∧
        mainExit (.run ec out) fetch = 1) ∧
    check_staged_files (.run 0 "app.py") (fun _ => some "password = \"abcdefg\"") =
      ([Msg.passed], true) ∧
    mainExit (.run 0 "app.py") (fun _ => some "password = \"abcdefg\"") = 0 ∧
    check_staged_files (.run 0 "app.py") (fun _ => some "password = \"abcdefgh\"") =
      ([Msg.password "app.py"], false) ∧
    mainExit (.run 0 "app.py") (fun _ => some "password = \"abcdefgh\"") = 1 := by
  refine ⟨?_, by decide, by decide, by decide, by decide⟩
  intro ec out fetch p c pre pw mid1 mid2 body post q hmem hp hfetch hdec hpw h1 h2 hq hbody hlen
  have hB : ruleB c.data = true := by
    rw [hdec]
    exact ruleB_of_decomp pre pw mid1 mid2 body post q q hpw h1 h2 hq hq hbody hlen
  have hblock := scan_blocks_of_bad fetch (parseListing out) p hmem hp c hfetch (Or.inr hB)
  exact ⟨hblock, by simp [mainExit, check_staged_files, hblock]⟩

/-- Witness for C2: a staged `app.py` whose content is
`password = "abcdefgh"` is blocked by the first part of the theorem. -/
theorem c2_password_boundary_witness :
    (check_staged_files (.run 0 "app.py")
      (fun _ => some "password = \"abcdefgh\"")).2 = false :=
  (c2_password_boundary.1 0 "app.py" _ "app.py" "password = \"abcdefgh\""
    [] "password".data " ".data " ".data "abcdefgh".data [] '"'
    (by decide) (by decide) (by decide) (by decide) (by decide) (by decide)
    (by decide) (by decide) (by decide) (by decide)).1

/-- Counterexample to C3 as stated: when the listing query fails with a
non-zero exit (and hence empty captured stdout) rather than an exception,
the audit prints the success marker — not the warning the claim
requires — though it does still exit 0. -/
theorem c3_nonzero_exit_no_warning :
    check_staged_files (.run 1 "") (fun _ => none) = ([Msg.passed], true) ∧
    Msg.auditError ∉ (check_staged_files (.run 1 "") (fun _ => none)).1 ∧
    mainExit (.run 1 "") (fun _ => none) = 0 := by
  decide

/-- C3 (amended): if listing the staged files raises an exception (or any
other unexpected exception occurs in the outer control flow), the audit
emits the warning and exits 0; if the listing subprocess merely returns a
non-zero exit, no exception is raised — its empty stdout is treated as
zero staged files and the audit prints the success marker and exits 0,
with no warning. -/
theorem c3_fail_open (fetch : String → Option String) (ec : Nat) :
    check_staged_files .exn fetch = ([Msg.auditError], true) ∧
    mainExit .exn fetch = 0 ∧
    check_staged_files (.run ec "") fetch = ([Msg.passed], true) ∧
    mainExit (.run ec "") fetch = 0 :=
  ⟨rfl, rfl, rfl, rfl⟩

/-- C4: files are scanned in listing order with rule A before rule B per
file; the first match short-circuits the whole loop, so the result does
not depend on the later files at all (they are never fetched or reported)
and the single block message names the triggering file. -/
theorem c4_first_match_short_circuit (fetch : String → Option String)
    (pre post : List String) (p c : String)
    (hpre : ∀ q ∈ pre, cleanFile fetch q = true)
    (hp : p ≠ "") (hfetch : fetch p = some c)
    (hmatch : ruleA c.data = true ∨ ruleB c.data = true) :
    scanFiles fetch (pre ++ p :: post) =
      ((if ruleA c.data then [Msg.apiKey p] else [Msg.password p]), false) := by
  rw [scanFiles_clean_append fetch pre (p :: post) hpre]
  exact scanFiles_hit fetch p post c hp hfetch hmatch

/-- Witness for C4: the spec's scenario — a clean first file, an API key
in the second; a third file with a password is never reached and the
message names only the second file. -/
theorem c4_first_match_short_circuit_witness :
    scanFiles
      (fun s => if s = "clean.py" then some "x = 1"
        else if s = "config.py" then some "API_KEY = \"sk-abcdefghijklmnopqrstuvwxyz\""
        else some "password = \"abcdefgh\"")
      ["clean.py", "config.py", "later.py"] =
      ([Msg.apiKey "config.py"], false) :=
  c4_first_match_short_circuit _ ["clean.py"] ["later.py"] "config.py"
    "API_KEY = \"sk-abcdefghijklmnopqrstuvwxyz\""
    (by decide) (by decide) (by decide) (Or.inl (by decide))

/-- C5: a staged file whose content fetch raises (binary content,
retrieval error) is silently skipped: the loop behaves exactly as if the
path were absent from the listing — no message, no abort, the rest is
still scanned. -/
theorem c5_unreadable_skipped (fetch : String → Option String) (p : String)
    (pre post : List String) (hp : fetch p = none) :
    scanFiles fetch (pre ++ p :: post) = scanFiles fetch (pre ++ post) :=
  scanFiles_skip fetch p hp pre post

/-- Witness for C5: an unreadable `bin.dat` between two readable files. -/
theorem c5_unreadable_skipped_witness :
    scanFiles (fun s => if s = "bin.dat" then none else some "x = 1")
      (["a.py"] ++ "bin.dat" :: ["b.py"]) =
    scanFiles (fun s => if s = "bin.dat" then none else some "x = 1")
      (["a.py"] ++ ["b.py"]) :=
  c5_unreadable_skipped _ "bin.dat" ["a.py"] ["b.py"] (by decide)

/-- C6: every execution terminates with a defined exit code — 0 on pass
(including the fail-open exception path) and 1 on block.  The embedding
is a total function, so no exception escapes by construction; this
records the exit-code contract. -/
theorem c6_exit_codes (listing : GitOutcome) (fetch : String → Option String) :
    (mainExit listing fetch = 0 ∨ mainExit listing fetch = 1) ∧
    (mainExit listing fetch = 0 ↔ (check_staged_files listing fetch).2 = true) ∧
    (mainExit listing fetch = 1 ↔ (check_staged_files listing fetch).2 = false) ∧
    mainExit .exn fetch = 0 := by
  refine ⟨?_, ?_, ?_, rfl⟩ <;>
    cases hv : (check_staged_files listing fetch).2 <;> simp [mainExit, hv]

/-- C7: an empty staged-file list makes the audit pass: the success
marker is printed, `check_staged_files` returns `True`, and the process
exits 0. -/
theorem c7_empty_listing (ec : Nat) (out : String) (fetch : String → Option String)
    (h : parseListing out = []) :
    check_staged_files (.run ec out) fetch = ([Msg.passed], true) ∧
    mainExit (.run ec out) fetch = 0 := by
  constructor
  · show scanFiles fetch (parseListing out) = _
    rw [h]
    simp [scanFiles]
  · simp [mainExit, check_staged_files, h, scanFiles]

/-- Witness for C7: a listing whose stdout is empty. -/
theorem c7_empty_listing_witness :
    check_staged_files (.run 0 "") (fun _ => none) = ([Msg.passed], true) ∧
    mainExit (.run 0 "") (fun _ => none) = 0 :=
  c7_empty_listing 0 "" (fun _ => none) (by decide)

/-- Counterexample to C8 as stated: rule B is not a single-line match.
On `password='ab` + newline + `cdefgh'` the pattern matches the whole
content — the class `[^'"]{8,}` crosses the newline — yet it matches no
individual line. -/
theorem c8_single_line_cx :
    ruleB "password='ab\ncdefgh'".data = true ∧
    (splitLines "password='ab\ncdefgh'".data).all (fun l => !ruleB l) = true := by
  decide

/-- C8 (amended): a rule B match on some individual line still implies a
match on the whole content, but not conversely — a match may span a
newline inside the quoted-string part `[^'"]{8,}` (only the `.*` parts
are single-line). -/
theorem c8_line_match_lifts (content l : List Char)
    (hmem : l ∈ splitLines content) (h : ruleB l = true) :
    ruleB content = true := by
  obtain ⟨pre, post, hp⟩ := mem_splitLines_infix content l hmem
  rw [hp]
  exact ruleB_infix pre l post h

/-- Witness for the amended C8: a password assignment on the second line
of a two-line file. -/
theorem c8_line_match_lifts_witness :
    ruleB "x\npassword = 'abcdefgh'".data = true :=
  c8_line_match_lifts "x\npassword = 'abcdefgh'".data "password = 'abcdefgh'".data
    (by decide) (by decide)

/-- C9: rule B does not require the opening and closing quotes to match:
a quoted string opening with one quote character and closing with the
other still blocks, provided at least 8 non-quote characters lie between
the two quotes. -/
theorem c9_mismatched_quotes (ec : Nat) (out : String) (fetch : String → Option String)
    (p c : String) (pre pw mid1 mid2 body post : List Char) (q1 q2 : Char)
    (hmem : p ∈ parseListing out) (hp : p ≠ "") (hfetch : fetch p = some c)
    (hdec : c.data =
      pre ++ (pw ++ (mid1 ++ ('=' :: (mid2 ++ (q1 :: (body ++ (q2 :: post))))))))
    (hpw : pw.map lowerc = pwChars)
    (h1 : mid1.all (fun ch => ch != '\n') = true)
    (h2 : mid2.all (fun ch => ch != '\n') = true)
    (hq1 : isQuote q1 = true) (hq2 : isQuote q2 = true) (_hne : q1 ≠ q2)
    (hbody : body.all (fun ch => !isQuote ch) = true)
    (hlen : 8 ≤ body.length) :
    (check_staged_files (.run ec out) fetch).2 = false ∧
      mainExit (.run ec out) fetch = 1 := by
  have hB : ruleB c.data = true := by
    rw [hdec]
    exact ruleB_of_decomp pre pw mid1 mid2 body post q1 q2 hpw h1 h2 hq1 hq2 hbody hlen
  have hblock := scan_blocks_of_bad fetch (parseListing out) p hmem hp c hfetch (Or.inr hB)
  exact ⟨hblock, by simp [mainExit, check_staged_files, hblock]⟩

/-- Witness for C9: the content `password = 'abcdefgh"`, opening with a
single quote and closing with a double quote. -/
theorem c9_mismatched_quotes_witness :
    (check_staged_files (.run 0 "app.py")
      (fun _ => some "password = 'abcdefgh\"")).2 = false ∧
    mainExit (.run 0 "app.py") (fun _ => some "password = 'abcdefgh\"") = 1 :=
  c9_mismatched_quotes 0 "app.py" _ "app.py" "password = 'abcdefgh\""
    [] "password".data " ".data " ".data "abcdefgh".data [] '\'' '"'
    (by decide) (by decide) (by decide) (by decide) (by decide) (by decide)
    (by decide) (by decide) (by decide) (by decide) (by decide) (by decide)

/-- C10: the audit is deterministic in its inputs: two runs in which the
collaborator returns the same listing outcome and the same per-path fetch
results produce the same messages and the same verdict and exit code. -/
theorem c10_deterministic (listing : GitOutcome) (f1 f2 : String → Option String)
    (h : ∀ p, f1 p = f2 p) :
    check_staged_files listing f1 = check_staged_files listing f2 ∧
    mainExit listing f1 = mainExit listing f2 := by
  cases listing with
  | exn => exact ⟨rfl, rfl⟩
  | run ec out =>
    have hc := scanFiles_congr (parseListing out) f1 f2 (fun p _ => h p)
    refine ⟨hc, ?_⟩
    simp [mainExit, check_staged_files, hc]

/-- Witness for C10: two syntactically different but pointwise equal
fetch functions give identical results. -/
theorem c10_deterministic_witness :
    check_staged_files (.run 0 "a.py") (fun _ => none) =
      check_staged_files (.run 0 "a.py") (fun s => if s = "zz" then none else none) ∧
    mainExit (.run 0 "a.py") (fun _ => none) =
      mainExit (.run 0 "a.py") (fun s => if s = "zz" then none else none) :=
  c10_deterministic (.run 0 "a.py") _ _
    (fun p => by by_cases hp : p = "zz" <;> simp [hp])
